import Mathlib

/-!
Verification of the TTL + LRU cache engine(s) of the repository against the
natural-language specification.

The repository contains three variants of the cache:
* `TTLLRUCache` (challenge3_cache/test-doc.md, lines 215-360): recency is the
  JS `Map` insertion order; every mutating or querying operation sweeps the
  expired entries first.  Embedded below in namespace `TTLLRU`.
* `TTLCache` (unnamed/part_002, lines 43-208): recency is a `lastAccessAt`
  timestamp; `size` and `has` do not sweep.  Embedded in namespace `TTLC`.
* `CacheSystem` (challenge3_cache/test-doc.md, lines 1064-1203): `expiry` is
  `number | null` and a falsy TTL yields `null` (no expiry).  Embedded in
  namespace `CS`.

A JS `Map` is embedded as a list of key-entry pairs in insertion order
(oldest first); `Map.set` on an existing key updates the entry in place,
`Map.delete` removes the key, iteration order is list order.  `Date.now()`
becomes an explicit `now : Nat` parameter read once per operation, and
`localStorage` under the configured storage key becomes a `StoredBlob`
(absent / malformed / parsed snapshot), with JSON round-tripping of the
snapshot list modelled as the identity.
-/

namespace PromptBattle

/-- The event kinds of the caches' structured log
(`LogEntry.type` in the source). -/
inductive LogType where
  | hit | miss | expired | evicted | saved | loaded | parseError
  | setE | deleteE | clearE
deriving DecidableEq, Repr

/-- One structured log event: the source logs
`{ timestamp: Date.now(), type, message }`. -/
structure LogEvent where
  timestamp : Nat
  type : LogType
  message : String
deriving DecidableEq, Repr

/-- `CacheConfig` of the source: `{ maxSize, defaultTTLms, storageKey }`. -/
structure CacheConfig where
  maxSize : Nat
  defaultTTLms : Nat
  storageKey : String
deriving DecidableEq, Repr

/-! ### The JS `Map` embedding, generic in the entry type -/

/-- A JS `Map` with string keys, as its insertion-ordered entry list. -/
abbrev KMap (α : Type) := List (String × α)

/-- `map.has(k)`. -/
def mapHas {α : Type} (m : KMap α) (k : String) : Bool :=
  m.any (fun p => p.1 == k)

/-- `map.get(k)`. -/
def mapGet {α : Type} (m : KMap α) (k : String) : Option α :=
  (m.find? (fun p => p.1 == k)).map Prod.snd

/-- `map.delete(k)` (the resulting map; the key never occurs twice, so
filtering by key is exactly the JS behaviour). -/
def mapDelete {α : Type} (m : KMap α) (k : String) : KMap α :=
  m.filter (fun p => p.1 != k)

/-- `map.set(k, e)`: update in place if the key is present (keeping its
position), otherwise append at the end (most recently inserted). -/
def mapSet {α : Type} (m : KMap α) (k : String) (e : α) : KMap α :=
  if mapHas m k then m.map (fun p => if p.1 == k then (k, e) else p)
  else m ++ [(k, e)]

/-- The key sequence of the map, in insertion order. -/
def keys {α : Type} (m : KMap α) : List String := m.map Prod.fst

/-! ### The `TTLLRUCache` engine (challenge3_cache/test-doc.md, lines 215-360)

Recency is the `Map` insertion order: the head of the entry list is the
least recently used entry, the last element the most recently used one. -/

namespace TTLLRU

/-- `CacheEntry` of `TTLLRUCache`: `{ value, expiresAt }`. -/
structure CacheEntry where
  value : String
  expiresAt : Nat
deriving DecidableEq, Repr

abbrev CMap := KMap CacheEntry

/-- `localStorage.getItem(storageKey)` outcomes as seen through `JSON.parse`:
no stored string, a string that fails to parse (carrying the failure
description), or a parsed snapshot list. -/
inductive StoredBlob where
  | absent
  | malformed (err : String)
  | snap (data : CMap)
deriving DecidableEq, Repr

/-- The engine state: the in-memory `Map` plus the blob currently persisted
under the configured `storageKey`. -/
structure EngineState where
  cache : CMap
  stored : StoredBlob
deriving DecidableEq, Repr

def expiredMsg (k : String) : String := "Key \"" ++ k ++ "\" expired and removed"
def expiredAccessMsg (k : String) : String := "Key \"" ++ k ++ "\" expired on access"
def missMsg (k : String) : String := "Cache miss for key \"" ++ k ++ "\""
def hitMsg (k : String) : String := "Cache hit for key \"" ++ k ++ "\""
def evictedMsg (k : String) : String := "Evicted LRU key \"" ++ k ++ "\" to make room"
def setMsg (k : String) (ttl : Nat) : String :=
  "Set key \"" ++ k ++ "\" with TTL " ++ toString ttl ++ "ms"
def deleteMsg (k : String) : String := "Deleted key \"" ++ k ++ "\""
def clearMsg : String := "Cache cleared"
def savedMsg (n : Nat) : String :=
  "Persisted " ++ toString n ++ " entries to localStorage"
def loadedMsg (l e : Nat) : String :=
  "Loaded " ++ toString l ++ " entries from localStorage (" ++ toString e ++ " expired)"
def parseErrMsg (err : String) : String := "Failed to parse localStorage: " ++ err

/-- `cleanupExpired`: collect every key whose entry satisfies
`now >= expiresAt`, then delete them one by one, logging one `expired`
event per deleted key. -/
def cleanupExpired (m : CMap) (now : Nat) : CMap × List LogEvent :=
  let toDelete := (m.filter (fun p => p.2.expiresAt ≤ now)).map Prod.fst
  (toDelete.foldl mapDelete m,
   toDelete.map (fun k => ⟨now, .expired, expiredMsg k⟩))

/-- `saveToStorage`: serialize the entry list and overwrite the stored blob,
logging `saved`.  (`JSON.stringify` on this data never throws, so the
catch branch is dead and the write always succeeds.) -/
def saveToStorage (m : CMap) (now : Nat) : StoredBlob × LogEvent :=
  (.snap m, ⟨now, .saved, savedMsg m.length⟩)

/-- `get(key)`: sweep, then look the key up; absent → `miss`; expired →
remove it and log `expired` (dead after the sweep under a single per-call
`now`, kept for faithfulness); live → re-insert at the MRU end and log
`hit`. -/
def getOp (m : CMap) (k : String) (now : Nat) :
    Option String × CMap × List LogEvent :=
  let c := cleanupExpired m now
  match mapGet c.1 k with
  | none => (none, c.1, c.2 ++ [⟨now, .miss, missMsg k⟩])
  | some e =>
      if e.expiresAt ≤ now then
        (none, mapDelete c.1 k, c.2 ++ [⟨now, .expired, expiredAccessMsg k⟩])
      else
        (some e.value, mapSet (mapDelete c.1 k) k e,
         c.2 ++ [⟨now, .hit, hitMsg k⟩])

/-- `set(key, value, ttlMs?)`: sweep; resolve the TTL (`ttlMs ?? defaultTTLms`);
delete the key to re-insert it at the end; if still at capacity evict the
first (least recently used) key of the map; insert; persist. -/
def setOp (cfg : CacheConfig) (st : EngineState) (k v : String)
    (ttlMs : Option Nat) (now : Nat) : EngineState × List LogEvent :=
  let c := cleanupExpired st.cache now
  let ttl := ttlMs.getD cfg.defaultTTLms
  let m2 := mapDelete c.1 k
  let ev : CMap × List LogEvent :=
    if cfg.maxSize ≤ m2.length then
      match m2.head? with
      | some p => (mapDelete m2 p.1, [⟨now, .evicted, evictedMsg p.1⟩])
      | none => (m2, [⟨now, .evicted, evictedMsg "undefined"⟩])
    else (m2, [])
  let m3 := mapSet ev.1 k ⟨v, now + ttl⟩
  let sv := saveToStorage m3 now
  (⟨m3, sv.1⟩, c.2 ++ ev.2 ++ [⟨now, .setE, setMsg k ttl⟩, sv.2])

/-- `delete(key)`: remove the key if present, and only then persist and log. -/
def deleteOp (st : EngineState) (k : String) (now : Nat) :
    Bool × EngineState × List LogEvent :=
  if mapHas st.cache k then
    let c := mapDelete st.cache k
    let sv := saveToStorage c now
    (true, ⟨c, sv.1⟩, [⟨now, .deleteE, deleteMsg k⟩, sv.2])
  else (false, st, [])

/-- `clear()`: empty the map, persist the empty snapshot, log `clear`. -/
def clearOp (_st : EngineState) (now : Nat) : EngineState × List LogEvent :=
  let sv := saveToStorage [] now
  (⟨[], sv.1⟩, [⟨now, .clearE, clearMsg⟩, sv.2])

/-- `getEntries()`: sweep, then return the entry list reversed (MRU first).
The sweep mutates the cache, so the cleaned map is returned as well. -/
def getEntriesOp (m : CMap) (now : Nat) :
    List (String × CacheEntry) × CMap :=
  let c := cleanupExpired m now
  (c.1.reverse, c.1)

/-- `getSize()`: sweep, then report the entry count. -/
def getSizeOp (m : CMap) (now : Nat) : Nat × CMap :=
  let c := cleanupExpired m now
  (c.1.length, c.1)

/-- `getKeys()`: the keys reversed (MRU first); no sweep. -/
def getKeys (m : CMap) : List String := (m.map Prod.fst).reverse

/-- `has(key)`: sweep, then report membership. -/
def hasOp (m : CMap) (k : String) (now : Nat) : Bool × CMap :=
  let c := cleanupExpired m now
  (mapHas c.1 k, c.1)

/-- The loop body of `loadFromStorage` over the parsed entry list: starting
from the constructor's empty map, insert every entry that is still live. -/
def loadItems (d : CMap) (now : Nat) : CMap :=
  d.foldl (fun acc p =>
    if now < p.2.expiresAt then mapSet acc p.1 p.2 else acc) []

/-- `loadFromStorage`, run once by the constructor: no stored string →
return silently with the empty map; parse failure → log `parse-error`,
keep the empty map; parsed snapshot → keep the live entries and log
`loaded` with the live and expired counts. -/
def loadFromStorage (blob : StoredBlob) (now : Nat) :
    CMap × List LogEvent :=
  match blob with
  | .absent => ([], [])
  | .malformed err => ([], [⟨now, .parseError, parseErrMsg err⟩])
  | .snap d =>
      (loadItems d now,
       [⟨now, .loaded,
         loadedMsg (d.filter (fun p => now < p.2.expiresAt)).length
           (d.filter (fun p => p.2.expiresAt ≤ now)).length⟩])

/-- The cache maps an engine with configuration `cfg` can reach: it starts
empty (or from a snapshot this engine previously persisted under its own
`storageKey`) and evolves by the public operations.  Queries sweep, which
is the `clean` step. -/
inductive Reachable (cfg : CacheConfig) : CMap → Prop where
  | empty : Reachable cfg []
  | load (m : CMap) (now : Nat) :
      Reachable cfg m → Reachable cfg (loadFromStorage (.snap m) now).1
  | getStep (m : CMap) (k : String) (now : Nat) :
      Reachable cfg m → Reachable cfg (getOp m k now).2.1
  | setStep (m : CMap) (blob : StoredBlob) (k v : String)
      (ttlMs : Option Nat) (now : Nat) :
      Reachable cfg m → Reachable cfg (setOp cfg ⟨m, blob⟩ k v ttlMs now).1.cache
  | deleteStep (m : CMap) (blob : StoredBlob) (k : String) (now : Nat) :
      Reachable cfg m → Reachable cfg (deleteOp ⟨m, blob⟩ k now).2.1.cache
  | clearStep (m : CMap) (blob : StoredBlob) (now : Nat) :
      Reachable cfg m → Reachable cfg (clearOp ⟨m, blob⟩ now).1.cache
  | cleanStep (m : CMap) (now : Nat) :
      Reachable cfg m → Reachable cfg (cleanupExpired m now).1

end TTLLRU

/-! ### The `TTLCache` variant (unnamed/part_002, lines 43-208)

Recency is the `lastAccessAt` timestamp of each entry; the map's insertion
order is not touched on access.  `size()` and `has()` report the raw map
state without sweeping. -/

namespace TTLC

/-- `CacheEntry` of `TTLCache`: `{ value, expiresAt, lastAccessAt }`. -/
structure CacheEntry where
  value : String
  expiresAt : Nat
  lastAccessAt : Nat
deriving DecidableEq, Repr

abbrev CMap := KMap CacheEntry

/-- The component's default configuration
(`maxSize: 5, defaultTTLms: 10000, storageKey: 'ttl-cache-demo'`). -/
def cfgDemo : CacheConfig := ⟨5, 10000, "ttl-cache-demo"⟩

/-- `cleanupExpired`: delete every entry with `now >= expiresAt`, one
`expired` log per key. -/
def cleanupExpired (m : CMap) (now : Nat) : CMap × List LogEvent :=
  let toDelete := (m.filter (fun p => p.2.expiresAt ≤ now)).map Prod.fst
  (toDelete.foldl mapDelete m,
   toDelete.map (fun k => ⟨now, .expired, "Cleaned up expired key: " ++ k⟩))

/-- The LRU scan of `set`: walk the entries keeping the first strictly
smallest `lastAccessAt` (starting from `lruKey = null`,
`oldestAccess = Infinity`). -/
def findLRU (m : CMap) : Option String :=
  (m.foldl (fun acc p =>
    match acc with
    | none => some (p.1, p.2.lastAccessAt)
    | some q =>
        if p.2.lastAccessAt < q.2 then some (p.1, p.2.lastAccessAt) else acc)
    none).map Prod.fst

/-- `set(key, value, ttlMs?)`: sweep; if the key is new and the map is at
capacity, evict the entry with the oldest `lastAccessAt` (skipped when the
scan returns a falsy key); then write the entry (in place if resident) and
persist.  The persisted `saved` log is appended last. -/
def setOp (cfg : CacheConfig) (m : CMap) (k v : String)
    (ttlMs : Option Nat) (now : Nat) : CMap × List LogEvent :=
  let c := cleanupExpired m now
  let ttl := ttlMs.getD cfg.defaultTTLms
  let step : CMap × List LogEvent :=
    if mapHas c.1 k = false ∧ cfg.maxSize ≤ c.1.length then
      match findLRU c.1 with
      | some lk =>
          if lk = "" then (c.1, [])
          else (mapDelete c.1 lk, [⟨now, .evicted, "Evicted LRU key: " ++ lk⟩])
      | none => (c.1, [])
    else (c.1, [])
  let m2 := mapSet step.1 k ⟨v, now + ttl, now⟩
  (m2, c.2 ++ step.2
    ++ [⟨now, .setE, "Set key: " ++ k ++ ", TTL: " ++ toString ttl ++ "ms"⟩,
        ⟨now, .saved, "Persisted " ++ toString m2.length ++ " entries to localStorage"⟩])

/-- `get(key)`: no sweep; absent → `miss`; expired → delete the one key,
log `expired`, persist, return nothing; live → update `lastAccessAt` in
place, log `hit`, return the value. -/
def getOp (m : CMap) (k : String) (now : Nat) :
    Option String × CMap × List LogEvent :=
  match mapGet m k with
  | none => (none, m, [⟨now, .miss, "Cache miss for key: " ++ k⟩])
  | some e =>
      if e.expiresAt ≤ now then
        let m2 := mapDelete m k
        (none, m2,
         [⟨now, .expired, "Key expired and removed: " ++ k⟩,
          ⟨now, .saved, "Persisted " ++ toString m2.length ++ " entries to localStorage"⟩])
      else
        (some e.value, mapSet m k { e with lastAccessAt := now },
         [⟨now, .hit, "Cache hit for key: " ++ k⟩])

/-- `delete(key)` (returns no value): remove the key if present and only
then persist and log (the log uses the `set` event type in the source);
the middle component records whether a save happened. -/
def deleteOp (m : CMap) (k : String) (now : Nat) :
    CMap × Bool × List LogEvent :=
  if mapHas m k then
    let m2 := mapDelete m k
    (m2, true,
     [⟨now, .setE, "Deleted key: " ++ k⟩,
      ⟨now, .saved, "Persisted " ++ toString m2.length ++ " entries to localStorage"⟩])
  else (m, false, [])

/-- `getAll()`: the entries sorted by `lastAccessAt` descending (MRU
first; JS `sort` is stable). -/
def getAll (m : CMap) : List (String × CacheEntry) :=
  m.mergeSort (fun a b => b.2.lastAccessAt ≤ a.2.lastAccessAt)

/-- `size()`: the raw map size, with no sweep. -/
def size (m : CMap) : Nat := m.length

/-- `has(key)`: raw map membership, with no sweep and no expiry check. -/
def has (m : CMap) (k : String) : Bool := mapHas m k

/-- The expiry test the variant's own `get` uses (`now >= expiresAt`). -/
def isExpired (e : CacheEntry) (now : Nat) : Bool := e.expiresAt ≤ now

/-- Definition following the spec's words: the number of resident keys `k`
such that `now < expiresAt(k)`. -/
def specLiveCount (m : CMap) (now : Nat) : Nat :=
  (m.filter (fun p => now < p.2.expiresAt)).length

end TTLC

/-! ### The `CacheSystem` variant (challenge3_cache/test-doc.md, lines
1048-1203)

`expiry` is `number | null`: `ttlMs ? Date.now() + ttlMs : null`, so a
falsy TTL (`0` or absent) stores `null`, and a `null` expiry never
expires.  The log entries carry an action, details and a severity; the
wall-clock display timestamp is omitted. -/

namespace CS

/-- `CacheEntry` of `CacheSystem`: `{ value, expiry, lastAccessed }`. -/
structure CacheEntry where
  value : String
  expiry : Option Nat
  lastAccessed : Nat
deriving DecidableEq, Repr

abbrev CMap := KMap CacheEntry

/-- One `addLog` record: `action`, `details`, and the severity string. -/
structure LogEntry where
  action : String
  details : String
  kind : String
deriving DecidableEq, Repr

/-- `evictLRU`: scan for the strictly smallest `lastAccessed` (starting
from `oldestKey = ''`, `oldestTime = Infinity`); delete and log only if
the found key is truthy. -/
def evictLRU (m : CMap) : CMap × List LogEntry :=
  match m.foldl (fun acc p =>
      match acc with
      | none => some (p.1, p.2.lastAccessed)
      | some q =>
          if p.2.lastAccessed < q.2 then some (p.1, p.2.lastAccessed) else acc)
    none with
  | some q =>
      if q.1 = "" then (m, [])
      else (mapDelete m q.1, [⟨"EVICT", "LRU evicted key: " ++ q.1, "warning"⟩])
  | none => (m, [])

/-- The truthiness-based expiry resolution of `setCacheValue`:
`ttlMs ? Date.now() + ttlMs : null`. -/
def resolveExpiry (ttlMs : Option Nat) (now : Nat) : Option Nat :=
  match ttlMs with
  | some t => if t = 0 then none else some (now + t)
  | none => none

/-- `setCacheValue(k, v, ttlMs?)`: reject an empty key; evict (timestamp
LRU) when the key is new and the map is at capacity; store
`{ value, expiry, lastAccessed: now }`. -/
def setCacheValue (maxSize : Nat) (m : CMap) (k v : String)
    (ttlMs : Option Nat) (now : Nat) : CMap × List LogEntry :=
  if k = "" then (m, [⟨"ERROR", "Key cannot be empty", "error"⟩])
  else
    let step : CMap × List LogEntry :=
      if mapHas m k = false ∧ maxSize ≤ m.length then evictLRU m
      else (m, [])
    let ttlSuffix : String :=
      match ttlMs with
      | some t => if t = 0 then "" else " (TTL: " ++ toString t ++ "ms)"
      | none => ""
    (mapSet step.1 k ⟨v, resolveExpiry ttlMs now, now⟩,
     step.2 ++ [⟨"SET", k ++ " = \"" ++ v ++ "\"" ++ ttlSuffix, "success"⟩])

/-- The expiry test of `getCacheValue`:
`entry.expiry && Date.now() > entry.expiry` (a zero expiry is falsy). -/
def entryExpired (e : CacheEntry) (now : Nat) : Bool :=
  match e.expiry with
  | none => false
  | some x => if x = 0 then false else decide (x < now)

/-- `getCacheValue(k)`: reject an empty key; absent → log not-found;
expired (per `entryExpired`) → delete and log; otherwise refresh
`lastAccessed` and return the value. -/
def getCacheValue (m : CMap) (k : String) (now : Nat) :
    Option String × CMap × List LogEntry :=
  if k = "" then (none, m, [⟨"ERROR", "Key cannot be empty", "error"⟩])
  else
    match mapGet m k with
    | none => (none, m, [⟨"GET", "Key \"" ++ k ++ "\" not found", "error"⟩])
    | some e =>
        if entryExpired e now then
          (none, mapDelete m k,
           [⟨"GET", "Key \"" ++ k ++ "\" expired and removed", "warning"⟩])
        else
          (some e.value, mapSet m k { e with lastAccessed := now },
           [⟨"GET", k ++ " = \"" ++ e.value ++ "\"", "success"⟩])

end CS

namespace TTLLRU

/-- Definition following the spec's words: the number of resident keys `k`
such that `now < expiresAt(k)`. -/
def specLiveCount (m : CMap) (now : Nat) : Nat :=
  (m.filter (fun p => now < p.2.expiresAt)).length

end TTLLRU

/-! ### Lemmas and claim theorems -/

/-! ### Generic lemmas about the `Map` embedding -/

theorem mapHas_false_iff {α : Type} (m : KMap α) (k : String) :
    mapHas m k = false ↔ ∀ p ∈ m, p.1 ≠ k := by
  simp [mapHas, List.any_eq_true]

theorem mapHas_true_iff {α : Type} (m : KMap α) (k : String) :
    mapHas m k = true ↔ ∃ p ∈ m, p.1 = k := by
  simp [mapHas, List.any_eq_true]

theorem mapDelete_of_not_has {α : Type} {m : KMap α} {k : String}
    (h : mapHas m k = false) : mapDelete m k = m := by
  rw [mapDelete, List.filter_eq_self]
  intro p hp
  simp [(mapHas_false_iff m k).1 h p hp]

theorem mapHas_mapDelete_self {α : Type} (m : KMap α) (k : String) :
    mapHas (mapDelete m k) k = false := by
  rw [mapHas_false_iff]
  intro p hp
  have := List.of_mem_filter hp
  simpa using this

theorem length_mapDelete_le {α : Type} (m : KMap α) (k : String) :
    (mapDelete m k).length ≤ m.length :=
  List.length_filter_le _ m

theorem length_mapDelete_lt {α : Type} {m : KMap α} {k : String}
    (h : mapHas m k = true) : (mapDelete m k).length < m.length := by
  induction m with
  | nil => simp [mapHas] at h
  | cons q m ih =>
      by_cases hq : q.1 = k
      · have hqb : (q.1 != k) = false := by simp [hq]
        simp only [mapDelete, List.filter_cons, hqb, if_false]
        calc (List.filter (fun p => p.1 != k) m).length
            ≤ m.length := List.length_filter_le _ m
          _ < (q :: m).length := by simp
      · have hqb : (q.1 != k) = true := by simp [hq]
        have hm : mapHas m k = true := by
          rcases (mapHas_true_iff (q :: m) k).1 h with ⟨p, hp, hpk⟩
          rcases List.mem_cons.1 hp with hp | hp
          · exact absurd (hp ▸ hpk) hq
          · exact (mapHas_true_iff m k).2 ⟨p, hp, hpk⟩
        simp only [mapDelete, List.filter_cons, hqb, if_true, List.length_cons]
        exact Nat.succ_lt_succ (ih hm)

theorem mapGet_eq_none_iff {α : Type} (m : KMap α) (k : String) :
    mapGet m k = none ↔ ∀ p ∈ m, p.1 ≠ k := by
  simp [mapGet, List.find?_eq_none]

theorem mapGet_none_of_has_false {α : Type} {m : KMap α} {k : String}
    (h : mapHas m k = false) : mapGet m k = none :=
  (mapGet_eq_none_iff m k).2 ((mapHas_false_iff m k).1 h)

theorem mapGet_some_mem {α : Type} {m : KMap α} {k : String} {e : α}
    (h : mapGet m k = some e) : (k, e) ∈ m := by
  simp only [mapGet, Option.map_eq_some'] at h
  obtain ⟨p, hp, hpe⟩ := h
  have hmem := List.mem_of_find?_eq_some hp
  have hkey : p.1 = k := by
    have := List.find?_some hp
    simpa using this
  have : p = (k, e) := by
    cases p; simp_all
  simpa [this] using hmem

theorem mapGet_cons {α : Type} (p : String × α) (m : KMap α) (k : String) :
    mapGet (p :: m) k = if p.1 == k then some p.2 else mapGet m k := by
  by_cases hp : p.1 = k
  · have hpb : (p.1 == k) = true := by simp [hp]
    simp [mapGet, List.find?, hpb]
  · have hpb : (p.1 == k) = false := by simp [hp]
    simp [mapGet, List.find?, hpb]

theorem mapGet_map_update {α : Type} (m : KMap α) (k : String) (e : α) :
    mapGet (m.map (fun p => if p.1 == k then (k, e) else p)) k
      = if mapHas m k then some e else none := by
  induction m with
  | nil => simp [mapGet, mapHas]
  | cons p m ih =>
      by_cases hp : p.1 = k
      · have hpb : (p.1 == k) = true := by simp [hp]
        simp only [List.map_cons, hpb, if_true]
        rw [mapGet_cons]
        simp [mapHas, hp]
      · have hpb : (p.1 == k) = false := by simp [hp]
        have hhas : mapHas (p :: m) k = mapHas m k := by
          simp [mapHas, hp]
        simp only [List.map_cons, hpb, Bool.false_eq_true, if_false]
        rw [mapGet_cons]
        simp only [hpb, Bool.false_eq_true, if_false, hhas]
        exact ih

theorem mapGet_mapSet_self {α : Type} (m : KMap α) (k : String) (e : α) :
    mapGet (mapSet m k e) k = some e := by
  rw [mapSet]
  cases h : mapHas m k with
  | true =>
      simp only [if_true]
      rw [mapGet_map_update, h, if_pos rfl]
  | false =>
      simp only [Bool.false_eq_true, if_false]
      have hnone : mapGet m k = none := mapGet_none_of_has_false h
      simp only [mapGet] at hnone ⊢
      rw [List.find?_append]
      simp only [Option.map_eq_none'] at hnone
      simp [hnone, List.find?]

theorem keys_mapSet_of_not_has {α : Type} {m : KMap α} {k : String} (e : α)
    (h : mapHas m k = false) : keys (mapSet m k e) = keys m ++ [k] := by
  simp [mapSet, h, keys]

theorem keys_mapSet_of_has {α : Type} {m : KMap α} {k : String} (e : α)
    (h : mapHas m k = true) : keys (mapSet m k e) = keys m := by
  simp only [mapSet, h, if_true, keys, List.map_map]
  apply List.map_congr_left
  intro p _
  by_cases hp : p.1 = k <;> simp [hp, Function.comp]

theorem keys_sublist_of_filter {α : Type} (m : KMap α) (q : String × α → Bool) :
    (keys (m.filter q)).Sublist (keys m) :=
  (List.filter_sublist m).map Prod.fst

theorem nodup_keys_filter {α : Type} {m : KMap α} (q : String × α → Bool)
    (h : (keys m).Nodup) : (keys (m.filter q)).Nodup :=
  (keys_sublist_of_filter m q).nodup h

theorem contains_iff_mem {a : String} {l : List String} :
    l.contains a = true ↔ a ∈ l := by
  show List.elem a l = true ↔ a ∈ l
  exact List.elem_iff

/-- Deleting a list of keys one after the other filters out exactly the
entries whose key occurs in the list. -/
theorem foldl_mapDelete {α : Type} (ks : List String) (m : KMap α) :
    ks.foldl mapDelete m = m.filter (fun p => !(ks.contains p.1)) := by
  induction ks generalizing m with
  | nil =>
      simp only [List.foldl_nil]
      symm
      rw [List.filter_eq_self]
      intro p _
      simp
  | cons k ks ih =>
      rw [List.foldl_cons, ih, mapDelete, List.filter_filter]
      apply List.filter_congr
      intro p _
      by_cases h : p.1 = k <;> simp [h, List.contains_cons]

theorem mapHas_append {α : Type} (l1 l2 : KMap α) (k : String) :
    mapHas (l1 ++ l2) k = (mapHas l1 k || mapHas l2 k) := by
  simp [mapHas, List.any_append]

theorem mapHas_true_of_mapGet_some {α : Type} {m : KMap α} {k : String} {e : α}
    (h : mapGet m k = some e) : mapHas m k = true :=
  (mapHas_true_iff m k).2 ⟨(k, e), mapGet_some_mem h, rfl⟩

theorem not_mem_keys_of_has_false {α : Type} {m : KMap α} {k : String}
    (h : mapHas m k = false) : k ∉ keys m := by
  intro hk
  obtain ⟨p, hp, hpk⟩ := List.mem_map.1 hk
  exact (mapHas_false_iff m k).1 h p hp hpk

theorem nodup_keys_mapSet {α : Type} {m : KMap α} (k : String) (e : α)
    (hnd : (keys m).Nodup) : (keys (mapSet m k e)).Nodup := by
  cases h : mapHas m k with
  | true => rw [keys_mapSet_of_has e h]; exact hnd
  | false =>
      rw [keys_mapSet_of_not_has e h]
      have hk : k ∉ keys m := not_mem_keys_of_has_false h
      simp [List.nodup_append, hnd, hk]

theorem length_mapSet_of_has {α : Type} {m : KMap α} {k : String} (e : α)
    (h : mapHas m k = true) : (mapSet m k e).length = m.length := by
  simp [mapSet, h]

theorem length_mapSet_of_not_has {α : Type} {m : KMap α} {k : String} (e : α)
    (h : mapHas m k = false) : (mapSet m k e).length = m.length + 1 := by
  simp [mapSet, h]

theorem mapHas_false_of_mapGet_none {α : Type} {m : KMap α} {k : String}
    (h : mapGet m k = none) : mapHas m k = false :=
  (mapHas_false_iff m k).2 ((mapGet_eq_none_iff m k).1 h)

/-- In a map with duplicate-free keys, two entries with the same key are the
same entry. -/
theorem nodup_keys_inj {α : Type} {m : KMap α} (hnd : (keys m).Nodup)
    {p q : String × α} (hp : p ∈ m) (hq : q ∈ m) (h : p.1 = q.1) : p = q := by
  induction m with
  | nil => cases hp
  | cons r m ih =>
      have hnd' : (keys m).Nodup := (List.nodup_cons.1 hnd).2
      have hr : r.1 ∉ keys m := by
        have := (List.nodup_cons.1 hnd).1
        simpa [keys] using this
      rcases List.mem_cons.1 hp with hp1 | hp1 <;> rcases List.mem_cons.1 hq with hq1 | hq1
      · rw [hp1, hq1]
      · exfalso
        subst hp1
        exact hr (h ▸ List.mem_map_of_mem Prod.fst hq1)
      · exfalso
        subst hq1
        exact hr (h.symm ▸ List.mem_map_of_mem Prod.fst hp1)
      · exact ih hnd' hp1 hq1

/-- In a duplicate-free map, membership of `(k, e)` determines `get k`. -/
theorem mapGet_eq_of_mem_nodup {α : Type} {m : KMap α} {k : String} {e : α}
    (hnd : (keys m).Nodup) (hmem : (k, e) ∈ m) : mapGet m k = some e := by
  induction m with
  | nil => cases hmem
  | cons p m ih =>
      have hnd' : (keys m).Nodup := (List.nodup_cons.1 hnd).2
      have hp_not : p.1 ∉ keys m := by
        simpa [keys] using (List.nodup_cons.1 hnd).1
      rw [mapGet_cons]
      rcases List.mem_cons.1 hmem with hmem1 | hmem1
      · rw [← hmem1]
        simp
      · have hp : p.1 ≠ k := by
          intro h
          exact hp_not (h ▸ List.mem_map_of_mem Prod.fst hmem1)
        simp only [hp, beq_iff_eq, if_neg hp]
        exact ih hnd' hmem1

/-- Filtering keeps the binding of `k` if it satisfies the predicate
(duplicate-free keys). -/
theorem mapGet_filter_some {α : Type} {m : KMap α} {k : String} {e : α}
    (hnd : (keys m).Nodup) (q : String × α → Bool)
    (hg : mapGet m k = some e) (hq : q (k, e) = true) :
    mapGet (m.filter q) k = some e := by
  have hmem : (k, e) ∈ m := mapGet_some_mem hg
  have hmem2 : (k, e) ∈ m.filter q := List.mem_filter.2 ⟨hmem, hq⟩
  exact mapGet_eq_of_mem_nodup (nodup_keys_filter q hnd) hmem2

/-- Filtering drops the binding of `k` if it fails the predicate
(duplicate-free keys). -/
theorem mapGet_filter_none {α : Type} {m : KMap α} {k : String} {e : α}
    (hnd : (keys m).Nodup) (q : String × α → Bool)
    (hg : mapGet m k = some e) (hq : q (k, e) = false) :
    mapGet (m.filter q) k = none := by
  rw [mapGet_eq_none_iff]
  intro p hp hpk
  have hpm : p ∈ m := List.mem_of_mem_filter hp
  have hpq : q p = true := List.of_mem_filter hp
  have hpe : p = (k, e) := by
    have hke : (k, e) ∈ m := mapGet_some_mem hg
    exact nodup_keys_inj hnd hpm hke (by simpa using hpk)
  rw [hpe] at hpq
  rw [hpq] at hq
  cases hq

/-- Filtering preserves the absence of a key. -/
theorem mapGet_filter_of_none {α : Type} {m : KMap α} {k : String}
    (q : String × α → Bool) (hg : mapGet m k = none) :
    mapGet (m.filter q) k = none := by
  rw [mapGet_eq_none_iff]
  intro p hp
  exact (mapGet_eq_none_iff m k).1 hg p (List.mem_of_mem_filter hp)

theorem mapGet_append_of_none {α : Type} {l1 : KMap α} {k : String}
    (l2 : KMap α) (h : mapGet l1 k = none) :
    mapGet (l1 ++ l2) k = mapGet l2 k := by
  simp only [mapGet] at h ⊢
  rw [List.find?_append]
  rw [Option.map_eq_none'] at h
  simp [h]

theorem mapGet_singleton {α : Type} (k : String) (e : α) :
    mapGet [(k, e)] k = some e := by
  simp [mapGet, List.find?]

/-- Deleting the key of the head of a duplicate-free map removes exactly
the head. -/
theorem mapDelete_cons_self {α : Type} {p : String × α} {rest : KMap α}
    (hnd : (keys (p :: rest)).Nodup) : mapDelete (p :: rest) p.1 = rest := by
  have hnotin : p.1 ∉ keys rest := by
    simpa [keys] using (List.nodup_cons.1 hnd).1
  rw [mapDelete, List.filter_cons]
  simp only [bne_self_eq_false, Bool.false_eq_true, if_false]
  rw [List.filter_eq_self]
  intro q hq
  have : q.1 ≠ p.1 := fun h => hnotin (h ▸ List.mem_map_of_mem Prod.fst hq)
  simpa using this

namespace TTLLRU

/-! #### Properties of the sweep -/

/-- The sweep deletes entries; it is a filter of the input map. -/
theorem cleanup_fst_eq (m : CMap) (now : Nat) :
    (cleanupExpired m now).1
      = m.filter (fun p =>
          !(((m.filter (fun q => q.2.expiresAt ≤ now)).map Prod.fst).contains p.1)) := by
  unfold cleanupExpired
  exact foldl_mapDelete _ m

/-- Entries surviving the sweep are live entries of the input map. -/
theorem mem_cleanup (m : CMap) (now : Nat) {p : String × CacheEntry}
    (hp : p ∈ (cleanupExpired m now).1) : p ∈ m ∧ now < p.2.expiresAt := by
  rw [cleanup_fst_eq] at hp
  simp only [List.mem_filter, Bool.not_eq_true'] at hp
  obtain ⟨hmem, hkeep⟩ := hp
  refine ⟨hmem, ?_⟩
  by_contra hlive
  push_neg at hlive
  have hexp : p.2.expiresAt ≤ now := hlive
  have hinmap : p.1 ∈ (m.filter (fun q => q.2.expiresAt ≤ now)).map Prod.fst := by
    apply List.mem_map_of_mem Prod.fst
    exact List.mem_filter.2 ⟨hmem, by simpa using hexp⟩
  rw [contains_iff_mem.2 hinmap] at hkeep
  cases hkeep

/-- With duplicate-free keys, the sweep keeps exactly the live entries. -/
theorem cleanup_eq_filter {m : CMap} (hnd : (keys m).Nodup) (now : Nat) :
    (cleanupExpired m now).1 = m.filter (fun p => now < p.2.expiresAt) := by
  rw [cleanup_fst_eq]
  apply List.filter_congr
  intro p hp
  by_cases hlive : now < p.2.expiresAt
  · have hnotmem : p.1 ∉ (m.filter (fun q => q.2.expiresAt ≤ now)).map Prod.fst := by
      intro hmem
      obtain ⟨q, hq, hqk⟩ := List.mem_map.1 hmem
      have hqm := List.mem_of_mem_filter hq
      have hqexp : q.2.expiresAt ≤ now := by
        have := List.of_mem_filter hq
        simpa using this
      have : q = p := nodup_keys_inj hnd hqm hp hqk
      rw [this] at hqexp
      omega
    have hc : (((m.filter (fun q => q.2.expiresAt ≤ now)).map Prod.fst).contains p.1) = false :=
      Bool.eq_false_iff.2 (fun h => hnotmem (contains_iff_mem.1 h))
    rw [hc]
    simp [hlive]
  · have hexp : p.2.expiresAt ≤ now := by omega
    have hmem : p.1 ∈ (m.filter (fun q => q.2.expiresAt ≤ now)).map Prod.fst := by
      apply List.mem_map_of_mem Prod.fst
      exact List.mem_filter.2 ⟨hp, by simpa using hexp⟩
    rw [contains_iff_mem.2 hmem]
    simp [hlive]

/-- If every entry is live, the sweep is a no-op and logs nothing. -/
theorem cleanup_of_live {m : CMap} {now : Nat}
    (h : ∀ p ∈ m, now < p.2.expiresAt) : cleanupExpired m now = (m, []) := by
  unfold cleanupExpired
  have hnil : m.filter (fun p => p.2.expiresAt ≤ now) = [] := by
    rw [List.filter_eq_nil_iff]
    intro p hp
    have := h p hp
    simp
    omega
  simp [hnil]

/-- The sweep preserves duplicate-freeness of the keys. -/
theorem cleanup_nodup {m : CMap} (hnd : (keys m).Nodup) (now : Nat) :
    (keys (cleanupExpired m now).1).Nodup := by
  rw [cleanup_fst_eq]
  exact nodup_keys_filter _ hnd

/-- The sweep never grows the map. -/
theorem cleanup_length_le (m : CMap) (now : Nat) :
    (cleanupExpired m now).1.length ≤ m.length := by
  rw [cleanup_fst_eq]
  exact List.length_filter_le _ m

/-- The sweep only logs `expired` events. -/
theorem cleanup_events_expired (m : CMap) (now : Nat) {ev : LogEvent}
    (h : ev ∈ (cleanupExpired m now).2) : ev.type = .expired := by
  unfold cleanupExpired at h
  simp only [List.mem_map] at h
  obtain ⟨k, _, hk⟩ := h
  rw [← hk]

/-! #### Case analysis of `get` -/

theorem getOp_miss {m : CMap} {k : String} {now : Nat}
    (hg : mapGet (cleanupExpired m now).1 k = none) :
    getOp m k now
      = (none, (cleanupExpired m now).1,
         (cleanupExpired m now).2 ++ [⟨now, .miss, missMsg k⟩]) := by
  simp only [getOp]
  rw [hg]

theorem getOp_expired {m : CMap} {k : String} {now : Nat} {e : CacheEntry}
    (hg : mapGet (cleanupExpired m now).1 k = some e)
    (hexp : e.expiresAt ≤ now) :
    getOp m k now
      = (none, mapDelete (cleanupExpired m now).1 k,
         (cleanupExpired m now).2 ++ [⟨now, .expired, expiredAccessMsg k⟩]) := by
  simp only [getOp]
  rw [hg]
  simp [hexp]

theorem getOp_hit {m : CMap} {k : String} {now : Nat} {e : CacheEntry}
    (hg : mapGet (cleanupExpired m now).1 k = some e)
    (hlive : now < e.expiresAt) :
    getOp m k now
      = (some e.value, mapSet (mapDelete (cleanupExpired m now).1 k) k e,
         (cleanupExpired m now).2 ++ [⟨now, .hit, hitMsg k⟩]) := by
  simp only [getOp]
  rw [hg]
  have : ¬ e.expiresAt ≤ now := by omega
  simp [this]

/-! #### The shape of `set` -/

/-- After any `set`, the cache is a map of live entries (live at the `set`'s
own `now`) not containing `k`, with the new entry appended at the MRU end. -/
theorem setOp_cache_shape (cfg : CacheConfig) (st : EngineState) (k v : String)
    (ttlMs : Option Nat) (now : Nat) :
    ∃ rest : CMap,
      (setOp cfg st k v ttlMs now).1.cache
          = rest ++ [(k, ⟨v, now + ttlMs.getD cfg.defaultTTLms⟩)]
        ∧ mapHas rest k = false
        ∧ ∀ p ∈ rest, p ∈ st.cache ∧ now < p.2.expiresAt := by
  unfold setOp
  set c1 := (cleanupExpired st.cache now).1 with hc1
  set m2 := mapDelete c1 k with hm2
  by_cases hcap : cfg.maxSize ≤ m2.length
  · cases hh : m2.head? with
    | some p =>
        refine ⟨mapDelete m2 p.1, ?_, ?_, ?_⟩
        · simp only [hcap, if_true, hh]
          rw [mapSet, if_neg]
          intro hhas
          have h1 : mapHas (mapDelete m2 p.1) k = true := hhas
          rw [mapHas_true_iff] at h1
          obtain ⟨q, hq, hqk⟩ := h1
          have hq2 : q ∈ m2 := List.mem_of_mem_filter hq
          have := List.of_mem_filter (p := fun r : String × CacheEntry => r.1 != k) hq2
          simp [hqk] at this
        · rw [mapHas_false_iff]
          intro q hq
          have hq2 : q ∈ m2 := List.mem_of_mem_filter hq
          have := List.of_mem_filter (p := fun r : String × CacheEntry => r.1 != k) hq2
          simpa using this
        · intro q hq
          have hq2 : q ∈ m2 := List.mem_of_mem_filter hq
          have hq1 : q ∈ c1 := List.mem_of_mem_filter hq2
          exact mem_cleanup st.cache now hq1
    | none =>
        refine ⟨m2, ?_, ?_, ?_⟩
        · simp only [hcap, if_true, hh]
          rw [mapSet, if_neg]
          intro hhas
          exact absurd hhas (by simp [hm2, mapHas_mapDelete_self])
        · exact mapHas_mapDelete_self c1 k
        · intro q hq
          have hq1 : q ∈ c1 := List.mem_of_mem_filter hq
          exact mem_cleanup st.cache now hq1
  · refine ⟨m2, ?_, ?_, ?_⟩
    · simp only [hcap, if_false]
      rw [mapSet, if_neg]
      intro hhas
      exact absurd hhas (by simp [hm2, mapHas_mapDelete_self])
    · exact mapHas_mapDelete_self c1 k
    · intro q hq
      have hq1 : q ∈ c1 := List.mem_of_mem_filter hq
      exact mem_cleanup st.cache now hq1

/-! #### Loading -/

theorem loadItems_go (now : Nat) (d : CMap) :
    ∀ acc : CMap, (keys d).Nodup →
      (∀ p ∈ d, mapHas acc p.1 = false) →
      d.foldl (fun acc p =>
          if now < p.2.expiresAt then mapSet acc p.1 p.2 else acc) acc
        = acc ++ d.filter (fun p => now < p.2.expiresAt) := by
  induction d with
  | nil => intro acc _ _; simp
  | cons p d ih =>
      intro acc hnd hdisj
      have hpd : mapHas acc p.1 = false := hdisj p (List.mem_cons_self p d)
      have hnd' : (keys d).Nodup := (List.nodup_cons.1 hnd).2
      have hp_not : p.1 ∉ keys d := by
        simpa [keys] using (List.nodup_cons.1 hnd).1
      by_cases hlive : now < p.2.expiresAt
      · simp only [List.foldl_cons, hlive, if_true]
        have hset : mapSet acc p.1 p.2 = acc ++ [p] := by
          rw [mapSet, if_neg (by simp [hpd])]
        rw [hset, ih (acc ++ [p]) hnd' ?_]
        · rw [List.filter_cons]
          simp only [hlive, decide_True, if_true]
          simp
        · intro q hq
          rw [mapHas_append]
          have h1 : mapHas acc q.1 = false := hdisj q (List.mem_cons_of_mem p hq)
          have h2 : mapHas [p] q.1 = false := by
            rw [mapHas_false_iff]
            intro r hr
            have : r = p := by simpa using hr
            subst this
            intro hrq
            exact hp_not (hrq ▸ List.mem_map_of_mem Prod.fst hq)
          simp [h1, h2]
      · simp only [List.foldl_cons, hlive, if_false]
        rw [ih acc hnd' (fun q hq => hdisj q (List.mem_cons_of_mem p hq))]
        rw [List.filter_cons]
        simp [hlive]

/-- With duplicate-free keys, loading a snapshot keeps exactly the entries
that are still live at load time, in their stored order. -/
theorem loadItems_eq_filter {d : CMap} (hnd : (keys d).Nodup) (now : Nat) :
    loadItems d now = d.filter (fun p => now < p.2.expiresAt) := by
  unfold loadItems
  rw [loadItems_go now d [] hnd (fun p _ => by simp [mapHas])]
  simp

/-! #### The size and key invariant of reachable states -/

/-- Every reachable cache has duplicate-free keys and, as long as the
configured bound is at least one, at most `maxSize` entries. -/
theorem reachable_inv {cfg : CacheConfig} {m : CMap}
    (hmax : 1 ≤ cfg.maxSize) (h : Reachable cfg m) :
    (keys m).Nodup ∧ m.length ≤ cfg.maxSize := by
  induction h with
  | empty => simp [keys]
  | load m now _ ih =>
      obtain ⟨hnd, hlen⟩ := ih
      simp only [loadFromStorage]
      rw [loadItems_eq_filter hnd now]
      constructor
      · exact nodup_keys_filter _ hnd
      · exact le_trans (List.length_filter_le _ m) hlen
  | getStep m k now _ ih =>
      obtain ⟨hnd, hlen⟩ := ih
      have hnd1 := cleanup_nodup hnd now
      have hlen1 := le_trans (cleanup_length_le m now) hlen
      cases hg : mapGet (cleanupExpired m now).1 k with
      | none => rw [getOp_miss hg]; exact ⟨hnd1, hlen1⟩
      | some e =>
          by_cases hexp : e.expiresAt ≤ now
          · rw [getOp_expired hg hexp]
            refine ⟨nodup_keys_filter _ hnd1, ?_⟩
            exact le_trans (length_mapDelete_le _ k) hlen1
          · rw [getOp_hit hg (by omega)]
            have hhas : mapHas (cleanupExpired m now).1 k = true :=
              mapHas_true_of_mapGet_some hg
            have hdel : mapHas (mapDelete (cleanupExpired m now).1 k) k = false :=
              mapHas_mapDelete_self _ k
            constructor
            · exact nodup_keys_mapSet k e (nodup_keys_filter _ hnd1)
            · rw [length_mapSet_of_not_has e hdel]
              have := length_mapDelete_lt hhas
              omega
  | setStep m blob k v ttlMs now _ ih =>
      obtain ⟨hnd, hlen⟩ := ih
      have hnd1 := cleanup_nodup hnd now
      have hlen1 := le_trans (cleanup_length_le m now) hlen
      simp only [setOp]
      set c1 := (cleanupExpired m now).1 with hc1
      set m2 := mapDelete c1 k with hm2
      have hnd2 : (keys m2).Nodup := nodup_keys_filter _ hnd1
      have hm2k : mapHas m2 k = false := mapHas_mapDelete_self c1 k
      have hlm2 : m2.length ≤ cfg.maxSize :=
        le_trans (length_mapDelete_le c1 k) hlen1
      by_cases hcap : cfg.maxSize ≤ m2.length
      · rw [if_pos hcap]
        cases hm2c : m2 with
        | nil =>
            rw [hm2c] at hcap
            simp at hcap
            omega
        | cons q rest =>
            simp only [List.head?_cons]
            have hdel : mapDelete (q :: rest) q.1 = rest :=
              mapDelete_cons_self (hm2c ▸ hnd2)
            have hrest_nd : (keys rest).Nodup :=
              (List.nodup_cons.1 (hm2c ▸ hnd2)).2
            have hrk : mapHas rest k = false := by
              rw [mapHas_false_iff]
              intro p hp
              exact (mapHas_false_iff m2 k).1 hm2k p
                (hm2c ▸ List.mem_cons_of_mem q hp)
            rw [hdel]
            constructor
            · exact nodup_keys_mapSet k _ hrest_nd
            · rw [length_mapSet_of_not_has _ hrk]
              rw [hm2c] at hlm2
              simp at hlm2
              omega
      · rw [if_neg hcap]
        constructor
        · exact nodup_keys_mapSet k _ hnd2
        · rw [length_mapSet_of_not_has _ hm2k]
          omega
  | deleteStep m blob k now _ ih =>
      obtain ⟨hnd, hlen⟩ := ih
      unfold deleteOp
      by_cases hhas : mapHas m k
      · simp only [hhas, if_true]
        refine ⟨nodup_keys_filter _ hnd, ?_⟩
        exact le_trans (length_mapDelete_le m k) hlen
      · simp only [hhas, if_false]
        exact ⟨hnd, hlen⟩
  | clearStep m blob now _ _ =>
      simp [clearOp, keys]
  | cleanStep m now _ ih =>
      obtain ⟨hnd, hlen⟩ := ih
      exact ⟨cleanup_nodup hnd now, le_trans (cleanup_length_le m now) hlen⟩

/-- The sweep never logs an `evicted` event. -/
theorem cleanup_filter_evicted (m : CMap) (now : Nat) :
    (cleanupExpired m now).2.filter (fun ev => ev.type == LogType.evicted) = [] := by
  rw [List.filter_eq_nil_iff]
  intro ev hev
  have := cleanup_events_expired m now hev
  simp [this]

end TTLLRU


namespace TTLC

/-- A stable sort of entries that all carry the same `lastAccessAt` keeps
them in insertion order: on ties the comparator holds both ways, so the
input is already sorted and `getAll` returns it unchanged. -/
theorem getAll_of_tied (m : CMap) (t : Nat)
    (h : ∀ p ∈ m, p.2.lastAccessAt = t) : getAll m = m := by
  unfold getAll
  apply List.mergeSort_of_sorted
  apply List.pairwise_of_forall_mem_list
  intro a ha b hb
  simp [h a ha, h b hb]

end TTLC

/-- C1: for every reachable cache state (with `maxSize ≥ 1`) and every
`set(key, value, ttl?)`: after the call the resident count is at most
`maxSize`; if — after the sweep `set` begins with — the key is not resident
and the resident count is at least `maxSize`, exactly the least-recently-used
entry (the head of the insertion-ordered map) is evicted and exactly one
`evicted` event naming it is logged; otherwise no `evicted` event is
logged. -/
theorem C1_set_eviction (cfg : CacheConfig) (blob : TTLLRU.StoredBlob)
    (m : TTLLRU.CMap) (k v : String) (ttlMs : Option Nat) (now : Nat)
    (hmax : 1 ≤ cfg.maxSize) (hreach : TTLLRU.Reachable cfg m) :
    (TTLLRU.setOp cfg ⟨m, blob⟩ k v ttlMs now).1.cache.length ≤ cfg.maxSize
    ∧ (mapHas (TTLLRU.cleanupExpired m now).1 k = false →
        cfg.maxSize ≤ ((TTLLRU.cleanupExpired m now).1).length →
        ∃ lru rest, (TTLLRU.cleanupExpired m now).1 = lru :: rest
          ∧ (TTLLRU.setOp cfg ⟨m, blob⟩ k v ttlMs now).1.cache
              = rest ++ [(k, ⟨v, now + ttlMs.getD cfg.defaultTTLms⟩)]
          ∧ ((TTLLRU.setOp cfg ⟨m, blob⟩ k v ttlMs now).2.filter
              (fun ev => ev.type == LogType.evicted))
              = [⟨now, .evicted, TTLLRU.evictedMsg lru.1⟩])
    ∧ ((mapHas (TTLLRU.cleanupExpired m now).1 k = true ∨
        ((TTLLRU.cleanupExpired m now).1).length < cfg.maxSize) →
        (TTLLRU.setOp cfg ⟨m, blob⟩ k v ttlMs now).2.filter
          (fun ev => ev.type == LogType.evicted) = []) := by
  obtain ⟨hnd, hlen⟩ := TTLLRU.reachable_inv hmax hreach
  have hnd1 := TTLLRU.cleanup_nodup hnd now
  have hlen1 := le_trans (TTLLRU.cleanup_length_le m now) hlen
  refine ⟨?_, ?_, ?_⟩
  · exact (TTLLRU.reachable_inv hmax
      (TTLLRU.Reachable.setStep m blob k v ttlMs now hreach)).2
  · intro hhasf hcap
    cases hc1 : (TTLLRU.cleanupExpired m now).1 with
    | nil =>
        rw [hc1] at hcap
        simp at hcap
        omega
    | cons lru rest =>
        rw [hc1] at hhasf hnd1
        have hdel0 : mapDelete (lru :: rest) k = lru :: rest :=
          mapDelete_of_not_has hhasf
        have hdel1 : mapDelete (lru :: rest) lru.1 = rest :=
          mapDelete_cons_self hnd1
        have hrk : mapHas rest k = false := by
          rw [mapHas_false_iff]
          intro p hp
          exact (mapHas_false_iff (lru :: rest) k).1 hhasf p
            (List.mem_cons_of_mem lru hp)
        have hset : mapSet rest k
            (⟨v, now + ttlMs.getD cfg.defaultTTLms⟩ : TTLLRU.CacheEntry)
            = rest ++ [(k, ⟨v, now + ttlMs.getD cfg.defaultTTLms⟩)] := by
          rw [mapSet, if_neg (by simp [hrk])]
        have hcap2 : cfg.maxSize ≤ (lru :: rest).length := by
          rw [hc1] at hcap
          exact hcap
        refine ⟨lru, rest, rfl, ?_, ?_⟩
        · simp only [TTLLRU.setOp, hc1, hdel0, if_pos hcap2, List.head?_cons,
            hdel1, hset]
        · simp only [TTLLRU.setOp, hc1, hdel0, if_pos hcap2, List.head?_cons,
            hdel1, hset]
          simp [List.filter_append, TTLLRU.cleanup_filter_evicted,
            TTLLRU.saveToStorage]
  · intro hsmall
    have hcapf : ¬ cfg.maxSize ≤ (mapDelete (TTLLRU.cleanupExpired m now).1 k).length := by
      rcases hsmall with hhast | hlt
      · have := length_mapDelete_lt hhast
        omega
      · have := length_mapDelete_le (TTLLRU.cleanupExpired m now).1 k
        omega
    simp only [TTLLRU.setOp, if_neg hcapf]
    simp [List.filter_append, TTLLRU.cleanup_filter_evicted,
      TTLLRU.saveToStorage]

/-- Witness for C1 at a concrete input. -/
theorem C1_set_eviction_witness :
    (TTLLRU.setOp ⟨3, 5000, "ttl-lru-cache"⟩ ⟨[], .absent⟩ "a" "1" none 0).1.cache.length
      ≤ 3 :=
  (C1_set_eviction ⟨3, 5000, "ttl-lru-cache"⟩ .absent [] "a" "1" none 0
    (by decide) TTLLRU.Reachable.empty).1

/-- C2: `get(key)` returns the stored value iff the key is resident and live
(`now < expiresAt`) at call time; on a resident-but-expired key it removes
the entry, logs `expired`, and returns nothing; on an absent key it logs
`miss` and returns nothing, leaving only the sweep's effect; on a live key
it returns the value, moves the key to the MRU end, and logs `hit`. -/
theorem C2_get_contract (m : TTLLRU.CMap) (k : String) (now : Nat)
    (hnd : (keys m).Nodup) :
    (∀ v : String, (TTLLRU.getOp m k now).1 = some v ↔
        ∃ e : TTLLRU.CacheEntry,
          mapGet m k = some e ∧ now < e.expiresAt ∧ v = e.value)
    ∧ (∀ e : TTLLRU.CacheEntry, mapGet m k = some e → e.expiresAt ≤ now →
        (TTLLRU.getOp m k now).1 = none
        ∧ mapHas (TTLLRU.getOp m k now).2.1 k = false
        ∧ (⟨now, .expired, TTLLRU.expiredMsg k⟩ : LogEvent)
            ∈ (TTLLRU.getOp m k now).2.2)
    ∧ (mapGet m k = none →
        (TTLLRU.getOp m k now).1 = none
        ∧ (TTLLRU.getOp m k now).2.1 = (TTLLRU.cleanupExpired m now).1
        ∧ (⟨now, .miss, TTLLRU.missMsg k⟩ : LogEvent)
            ∈ (TTLLRU.getOp m k now).2.2)
    ∧ (∀ e : TTLLRU.CacheEntry, mapGet m k = some e → now < e.expiresAt →
        (TTLLRU.getOp m k now).1 = some e.value
        ∧ (TTLLRU.getOp m k now).2.1
            = mapDelete (TTLLRU.cleanupExpired m now).1 k ++ [(k, e)]
        ∧ (⟨now, .hit, TTLLRU.hitMsg k⟩ : LogEvent)
            ∈ (TTLLRU.getOp m k now).2.2) := by
  refine ⟨?_, ?_, ?_, ?_⟩
  · intro v
    constructor
    · intro hv
      cases hg : mapGet m k with
      | none =>
          have hg1 : mapGet (TTLLRU.cleanupExpired m now).1 k = none := by
            rw [TTLLRU.cleanup_eq_filter hnd]
            exact mapGet_filter_of_none _ hg
          rw [TTLLRU.getOp_miss hg1] at hv
          simp at hv
      | some e =>
          by_cases hlive : now < e.expiresAt
          · have hg1 : mapGet (TTLLRU.cleanupExpired m now).1 k = some e := by
              rw [TTLLRU.cleanup_eq_filter hnd]
              exact mapGet_filter_some hnd _ hg (by simp [hlive])
            rw [TTLLRU.getOp_hit hg1 hlive] at hv
            simp only [Option.some_inj] at hv
            exact ⟨e, rfl, hlive, hv.symm⟩
          · have hg1 : mapGet (TTLLRU.cleanupExpired m now).1 k = none := by
              rw [TTLLRU.cleanup_eq_filter hnd]
              exact mapGet_filter_none hnd _ hg (by simp; omega)
            rw [TTLLRU.getOp_miss hg1] at hv
            simp at hv
    · rintro ⟨e, hg, hlive, rfl⟩
      have hg1 : mapGet (TTLLRU.cleanupExpired m now).1 k = some e := by
        rw [TTLLRU.cleanup_eq_filter hnd]
        exact mapGet_filter_some hnd _ hg (by simp [hlive])
      rw [TTLLRU.getOp_hit hg1 hlive]
  · intro e hg hexp
    have hg1 : mapGet (TTLLRU.cleanupExpired m now).1 k = none := by
      rw [TTLLRU.cleanup_eq_filter hnd]
      exact mapGet_filter_none hnd _ hg (by simp; omega)
    rw [TTLLRU.getOp_miss hg1]
    refine ⟨rfl, mapHas_false_of_mapGet_none hg1, ?_⟩
    apply List.mem_append_left
    show _ ∈ (TTLLRU.cleanupExpired m now).2
    unfold TTLLRU.cleanupExpired
    simp only
    apply List.mem_map_of_mem (fun k => (⟨now, .expired, TTLLRU.expiredMsg k⟩ : LogEvent))
    exact List.mem_map.2
      ⟨(k, e), List.mem_filter.2 ⟨mapGet_some_mem hg, by simpa using hexp⟩, rfl⟩
  · intro hg
    have hg1 : mapGet (TTLLRU.cleanupExpired m now).1 k = none := by
      rw [TTLLRU.cleanup_eq_filter hnd]
      exact mapGet_filter_of_none _ hg
    rw [TTLLRU.getOp_miss hg1]
    refine ⟨rfl, rfl, ?_⟩
    apply List.mem_append_right
    simp
  · intro e hg hlive
    have hg1 : mapGet (TTLLRU.cleanupExpired m now).1 k = some e := by
      rw [TTLLRU.cleanup_eq_filter hnd]
      exact mapGet_filter_some hnd _ hg (by simp [hlive])
    rw [TTLLRU.getOp_hit hg1 hlive]
    refine ⟨rfl, ?_, ?_⟩
    · show mapSet (mapDelete (TTLLRU.cleanupExpired m now).1 k) k e = _
      rw [mapSet, if_neg (by simp [mapHas_mapDelete_self])]
    · apply List.mem_append_right
      simp

/-- Witness for C2 at a concrete input: a live entry is returned and moved
to the MRU position. -/
theorem C2_get_contract_witness :
    (TTLLRU.getOp [("a", ⟨"1", 10⟩)] "a" 0).1 = some "1" :=
  ((C2_get_contract [("a", ⟨"1", 10⟩)] "a" 0 (by decide)).2.2.2
    ⟨"1", 10⟩ (by decide) (by decide)).1

/-- C3 counterexample: in the TTLCache variant, two `set`s performed at the
same millisecond tie on `lastAccessAt`, and `getAll()`'s stable sort keeps
them in insertion order, so after `set A; set B` at the same instant the
sequence starts with `A` — the most recent `set` is not first. -/
theorem C3_recency_order_cex :
    (TTLC.setOp TTLC.cfgDemo
        (TTLC.setOp TTLC.cfgDemo [] "A" "1" (some 60000) 0).1
        "B" "2" (some 60000) 0).1
      = [("A", ⟨"1", 60000, 0⟩), ("B", ⟨"2", 60000, 0⟩)]
    ∧ TTLC.getAll [("A", ⟨"1", 60000, 0⟩), ("B", ⟨"2", 60000, 0⟩)]
        = [("A", ⟨"1", 60000, 0⟩), ("B", ⟨"2", 60000, 0⟩)]
    ∧ (TTLC.getAll [("A", ⟨"1", 60000, 0⟩), ("B", ⟨"2", 60000, 0⟩)]).head?
        ≠ some ("B", ⟨"2", 60000, 0⟩) := by
  refine ⟨by decide, ?_, ?_⟩
  · exact TTLC.getAll_of_tied _ 0 (by decide)
  · rw [TTLC.getAll_of_tied _ 0 (by decide)]
    decide

/-- C3 amended: in the TTLLRUCache engine, the sequence returned by
`getEntries` is a strict MRU-to-LRU total order over the resident keys (no
key appears twice), consistent with the touch history: after a `set` (whose
entry is not instantly expired) the key set is first; after a `get` that
returned a live value the key is first; and a `get` that misses (absent or
expired key) leaves the reported order unchanged.  In the TTLCache variant,
`getAll` sorts by `lastAccessAt` descending with a stable sort, so entries
whose touches fall in the same millisecond tie and are reported in
insertion order — in particular a map whose entries all share one
`lastAccessAt` is returned unchanged, and the most recent same-millisecond
`set` is not first. -/
theorem C3_recency_order :
    (∀ (cfg : CacheConfig) (m : TTLLRU.CMap) (now : Nat),
        1 ≤ cfg.maxSize → TTLLRU.Reachable cfg m →
        (((TTLLRU.getEntriesOp m now).1.map Prod.fst).Nodup))
    ∧ (∀ (cfg : CacheConfig) (blob : TTLLRU.StoredBlob) (m : TTLLRU.CMap)
        (k v : String) (ttlMs : Option Nat) (now : Nat),
        0 < ttlMs.getD cfg.defaultTTLms →
        ((TTLLRU.getEntriesOp
            (TTLLRU.setOp cfg ⟨m, blob⟩ k v ttlMs now).1.cache now).1.head?
          = some (k, ⟨v, now + ttlMs.getD cfg.defaultTTLms⟩)))
    ∧ (∀ (m : TTLLRU.CMap) (k : String) (now : Nat) (v : String),
        (TTLLRU.getOp m k now).1 = some v →
        ∃ e : TTLLRU.CacheEntry,
          (TTLLRU.getEntriesOp (TTLLRU.getOp m k now).2.1 now).1.head?
              = some (k, e)
            ∧ e.value = v)
    ∧ (∀ (m : TTLLRU.CMap) (k : String) (now : Nat),
        (TTLLRU.getOp m k now).1 = none →
        (TTLLRU.getEntriesOp (TTLLRU.getOp m k now).2.1 now).1
          = (TTLLRU.getEntriesOp m now).1)
    ∧ (∀ (m : TTLC.CMap) (t : Nat), (∀ p ∈ m, p.2.lastAccessAt = t) →
        TTLC.getAll m = m) := by
  refine ⟨?_, ?_, ?_, ?_, ?_⟩
  · intro cfg m now hmax hreach
    have hnd1 := TTLLRU.cleanup_nodup (TTLLRU.reachable_inv hmax hreach).1 now
    show (((TTLLRU.cleanupExpired m now).1.reverse).map Prod.fst).Nodup
    rw [List.map_reverse]
    exact (List.nodup_reverse).2 hnd1
  · intro cfg blob m k v ttlMs now httl
    obtain ⟨rest, hcache, hrk, hrest⟩ :=
      TTLLRU.setOp_cache_shape cfg ⟨m, blob⟩ k v ttlMs now
    have hlive : ∀ p ∈ rest ++ [(k, (⟨v, now + ttlMs.getD cfg.defaultTTLms⟩ :
        TTLLRU.CacheEntry))], now < p.2.expiresAt := by
      intro p hp
      rcases List.mem_append.1 hp with hp | hp
      · exact (hrest p hp).2
      · have : p = (k, (⟨v, now + ttlMs.getD cfg.defaultTTLms⟩ :
            TTLLRU.CacheEntry)) := by simpa using hp
        rw [this]
        simpa using httl
    rw [hcache]
    show ((TTLLRU.cleanupExpired _ now).1.reverse).head? = _
    rw [TTLLRU.cleanup_of_live hlive]
    simp
  · intro m k now v hv
    cases hg : mapGet (TTLLRU.cleanupExpired m now).1 k with
    | none =>
        rw [TTLLRU.getOp_miss hg] at hv
        simp at hv
    | some e =>
        have he : (k, e) ∈ (TTLLRU.cleanupExpired m now).1 := mapGet_some_mem hg
        have hlivek := (TTLLRU.mem_cleanup m now he).2
        rw [TTLLRU.getOp_hit hg hlivek] at hv
        simp only [Option.some_inj] at hv
        refine ⟨e, ?_, hv⟩
        rw [TTLLRU.getOp_hit hg hlivek]
        have hset : mapSet (mapDelete (TTLLRU.cleanupExpired m now).1 k) k e
            = mapDelete (TTLLRU.cleanupExpired m now).1 k ++ [(k, e)] := by
          rw [mapSet, if_neg (by simp [mapHas_mapDelete_self])]
        show ((TTLLRU.cleanupExpired _ now).1.reverse).head? = _
        rw [hset]
        have hlive : ∀ p ∈ mapDelete (TTLLRU.cleanupExpired m now).1 k ++ [(k, e)],
            now < p.2.expiresAt := by
          intro p hp
          rcases List.mem_append.1 hp with hp | hp
          · exact (TTLLRU.mem_cleanup m now (List.mem_of_mem_filter hp)).2
          · have : p = (k, e) := by simpa using hp
            rw [this]
            exact hlivek
        rw [TTLLRU.cleanup_of_live hlive]
        simp
  · intro m k now hv
    cases hg : mapGet (TTLLRU.cleanupExpired m now).1 k with
    | some e =>
        have he : (k, e) ∈ (TTLLRU.cleanupExpired m now).1 := mapGet_some_mem hg
        have hlivek := (TTLLRU.mem_cleanup m now he).2
        rw [TTLLRU.getOp_hit hg hlivek] at hv
        simp at hv
    | none =>
        rw [TTLLRU.getOp_miss hg]
        have hlive : ∀ p ∈ (TTLLRU.cleanupExpired m now).1, now < p.2.expiresAt :=
          fun p hp => (TTLLRU.mem_cleanup m now hp).2
        show ((TTLLRU.cleanupExpired _ now).1.reverse) = _
        rw [TTLLRU.cleanup_of_live hlive]
        rfl
  · intro m t h
    exact TTLC.getAll_of_tied m t h

/-- Witness for C3 at concrete inputs, one per conjunct. -/
theorem C3_recency_order_witness :
    (((TTLLRU.getEntriesOp ([] : TTLLRU.CMap) 0).1.map Prod.fst).Nodup)
    ∧ ((TTLLRU.getEntriesOp
          (TTLLRU.setOp ⟨3, 5000, "s"⟩ ⟨[], .absent⟩ "a" "1" none 0).1.cache 0).1.head?
        = some ("a", ⟨"1", 5000⟩))
    ∧ (∃ e : TTLLRU.CacheEntry,
        (TTLLRU.getEntriesOp (TTLLRU.getOp [("a", ⟨"1", 10⟩)] "a" 0).2.1 0).1.head?
            = some ("a", e)
          ∧ e.value = "1")
    ∧ ((TTLLRU.getEntriesOp (TTLLRU.getOp [("a", ⟨"1", 10⟩)] "b" 0).2.1 0).1
        = (TTLLRU.getEntriesOp [("a", ⟨"1", 10⟩)] 0).1)
    ∧ (TTLC.getAll [("x", ⟨"9", 50, 3⟩), ("y", ⟨"8", 60, 3⟩)]
        = [("x", ⟨"9", 50, 3⟩), ("y", ⟨"8", 60, 3⟩)]) :=
  ⟨C3_recency_order.1 ⟨3, 5000, "s"⟩ [] 0 (by decide) TTLLRU.Reachable.empty,
   C3_recency_order.2.1 ⟨3, 5000, "s"⟩ .absent [] "a" "1" none 0 (by decide),
   C3_recency_order.2.2.1 [("a", ⟨"1", 10⟩)] "a" 0 "1" (by decide),
   C3_recency_order.2.2.2.1 [("a", ⟨"1", 10⟩)] "b" 0 (by decide),
   C3_recency_order.2.2.2.2 [("x", ⟨"9", 50, 3⟩), ("y", ⟨"8", 60, 3⟩)] 3
     (by decide)⟩

/-- C6: on construction the engine performs one load through the storage
adapter: an absent blob yields the empty resident set (and no event); a
malformed blob yields the empty resident set and exactly a `parse-error`
event, with the load returning normally rather than raising; a parsed
snapshot is filtered to the entries still live at load time, kept in their
stored order. -/
theorem C6_load_contract :
    (∀ now : Nat, TTLLRU.loadFromStorage .absent now = ([], []))
    ∧ (∀ (err : String) (now : Nat),
        (TTLLRU.loadFromStorage (.malformed err) now).1 = []
        ∧ (TTLLRU.loadFromStorage (.malformed err) now).2
            = [⟨now, .parseError, TTLLRU.parseErrMsg err⟩])
    ∧ (∀ (d : TTLLRU.CMap) (now : Nat), (keys d).Nodup →
        (TTLLRU.loadFromStorage (.snap d) now).1
          = d.filter (fun p => now < p.2.expiresAt)) := by
  refine ⟨fun now => rfl, fun err now => ⟨rfl, rfl⟩, ?_⟩
  intro d now hnd
  show TTLLRU.loadItems d now = _
  exact TTLLRU.loadItems_eq_filter hnd now

/-- Witness for C6: a snapshot with one live and one expired entry loads
exactly the live one. -/
theorem C6_load_contract_witness :
    (TTLLRU.loadFromStorage (.snap [("a", ⟨"1", 10⟩), ("b", ⟨"2", 3⟩)]) 5).1
      = [("a", ⟨"1", 10⟩)] := by
  rw [C6_load_contract.2.2 [("a", ⟨"1", 10⟩), ("b", ⟨"2", 3⟩)] 5 (by decide)]
  decide

/-- C7: saving a cache and loading the snapshot into a fresh engine under
the same storage key yields exactly the entries (key and value) still live
at load time: the entries live at save time minus those that expired in
between. -/
theorem C7_roundtrip (m : TTLLRU.CMap) (tS tL : Nat)
    (hnd : (keys m).Nodup) (hle : tS ≤ tL) :
    (TTLLRU.loadFromStorage (TTLLRU.saveToStorage m tS).1 tL).1
      = m.filter (fun p => tL < p.2.expiresAt)
    ∧ (TTLLRU.loadFromStorage (TTLLRU.saveToStorage m tS).1 tL).1
      = (m.filter (fun p => tS < p.2.expiresAt)).filter
          (fun p => tL < p.2.expiresAt) := by
  have h1 : (TTLLRU.loadFromStorage (TTLLRU.saveToStorage m tS).1 tL).1
      = m.filter (fun p => tL < p.2.expiresAt) := by
    show TTLLRU.loadItems m tL = _
    exact TTLLRU.loadItems_eq_filter hnd tL
  refine ⟨h1, h1.trans ?_⟩
  rw [List.filter_filter]
  apply List.filter_congr
  intro p _
  by_cases h : tL < p.2.expiresAt
  · have : tS < p.2.expiresAt := by omega
    simp [h, this]
  · simp [h]

/-- Witness for C7: one entry expires between save and load, one survives. -/
theorem C7_roundtrip_witness :
    (TTLLRU.loadFromStorage
        (TTLLRU.saveToStorage [("a", ⟨"1", 4⟩), ("b", ⟨"2", 100⟩)] 2).1 6).1
      = [("b", ⟨"2", 100⟩)] := by
  rw [(C7_roundtrip [("a", ⟨"1", 4⟩), ("b", ⟨"2", 100⟩)] 2 6 (by decide)
    (by decide)).1]
  decide

/-- C10: persistence preserves the recency order, not only membership: the
saved blob is the resident entries in LRU-to-MRU insertion order, and when
every entry is still live at load time, a save-then-load into a fresh
engine reproduces the identical MRU-to-LRU sequence through `getEntries`
and `getKeys`. -/
theorem C10_persist_order (m : TTLLRU.CMap) (now : Nat)
    (hnd : (keys m).Nodup) (hlive : ∀ p ∈ m, now < p.2.expiresAt) :
    (TTLLRU.saveToStorage m now).1 = .snap m
    ∧ (TTLLRU.getEntriesOp
        (TTLLRU.loadFromStorage (TTLLRU.saveToStorage m now).1 now).1 now).1
      = (TTLLRU.getEntriesOp m now).1
    ∧ TTLLRU.getKeys
        (TTLLRU.loadFromStorage (TTLLRU.saveToStorage m now).1 now).1
      = TTLLRU.getKeys m := by
  have hload : (TTLLRU.loadFromStorage (TTLLRU.saveToStorage m now).1 now).1 = m := by
    show TTLLRU.loadItems m now = m
    rw [TTLLRU.loadItems_eq_filter hnd now]
    rw [List.filter_eq_self]
    intro p hp
    simpa using hlive p hp
  exact ⟨rfl, by rw [hload], by rw [hload]⟩

/-- Witness for C10: a two-entry all-live cache round-trips with its order. -/
theorem C10_persist_order_witness :
    (TTLLRU.getEntriesOp
        (TTLLRU.loadFromStorage
          (TTLLRU.saveToStorage [("a", ⟨"1", 50⟩), ("b", ⟨"2", 60⟩)] 7).1 7).1 7).1
      = (TTLLRU.getEntriesOp [("a", ⟨"1", 50⟩), ("b", ⟨"2", 60⟩)] 7).1 :=
  (C10_persist_order [("a", ⟨"1", 50⟩), ("b", ⟨"2", 60⟩)] 7 (by decide)
    (by decide)).2.1

/-- C4 counterexample: in the TTLCache variant, `set("a","1",ttl=0)` at
time 0 leaves a resident-but-expired entry, and `size()` reports 1 while
the number of live resident keys is 0 — `size()` does not sweep or
discount expired entries. -/
theorem C4_size_cex :
    (TTLC.setOp TTLC.cfgDemo [] "a" "1" (some 0) 0).1 = [("a", ⟨"1", 0, 0⟩)]
    ∧ TTLC.size [("a", ⟨"1", 0, 0⟩)] = 1
    ∧ TTLC.specLiveCount [("a", ⟨"1", 0, 0⟩)] 0 = 0 := by
  refine ⟨?_, rfl, rfl⟩
  decide

/-- C4 amended: in the TTLLRUCache engine, `getSize()` sweeps first and
equals the number of resident keys with `now < expiresAt`; in the TTLCache
variant, `size()` reports the raw resident count — the live count plus the
expired-but-unswept count — without removing or discounting expired
entries. -/
theorem C4_size_amended :
    (∀ (m : TTLLRU.CMap) (now : Nat), (keys m).Nodup →
        (TTLLRU.getSizeOp m now).1 = TTLLRU.specLiveCount m now)
    ∧ (∀ (m : TTLC.CMap) (now : Nat),
        TTLC.size m = TTLC.specLiveCount m now
          + (m.filter (fun p => p.2.expiresAt ≤ now)).length) := by
  constructor
  · intro m now hnd
    show (TTLLRU.cleanupExpired m now).1.length = _
    rw [TTLLRU.cleanup_eq_filter hnd]
    rfl
  · intro m now
    show m.length = _
    unfold TTLC.specLiveCount
    induction m with
    | nil => rfl
    | cons p m ih =>
        by_cases h : now < p.2.expiresAt
        · have h2 : ¬ p.2.expiresAt ≤ now := by omega
          simp [List.filter_cons, h, h2]
          omega
        · have h2 : p.2.expiresAt ≤ now := by omega
          simp [List.filter_cons, h, h2]
          omega

/-- Witness for the C4 amended theorem: one live and one expired entry. -/
theorem C4_size_amended_witness :
    (TTLLRU.getSizeOp [("a", ⟨"1", 3⟩), ("b", ⟨"2", 20⟩)] 5).1
      = TTLLRU.specLiveCount [("a", ⟨"1", 3⟩), ("b", ⟨"2", 20⟩)] 5 :=
  C4_size_amended.1 [("a", ⟨"1", 3⟩), ("b", ⟨"2", 20⟩)] 5 (by decide)

/-- C5 counterexample: in the CacheSystem variant, `setCacheValue` with an
explicit TTL of 0 stores `expiry = null` (the TTL is falsy), not
`now + 0`, and the entry is still retrievable arbitrarily much later
instead of being immediately expired. -/
theorem C5_ttl_cex :
    (CS.setCacheValue 5 [] "a" "1" (some 0) 100).1 = [("a", ⟨"1", none, 100⟩)]
    ∧ (CS.getCacheValue [("a", ⟨"1", none, 100⟩)] "a" 1000000).1 = some "1" := by
  refine ⟨?_, ?_⟩ <;> decide

/-- C5 amended: in the TTLLRUCache engine, `set` stores
`expiresAt = now + (ttl ?? defaultTTL)` — an explicit 0 makes the entry
immediately expired — and `get` returns a resident entry's value iff
`now < expiresAt`; in the CacheSystem variant, a falsy TTL (explicit 0 or
omitted) stores a null expiry, and such an entry never expires. -/
theorem C5_ttl_amended :
    (∀ (cfg : CacheConfig) (blob : TTLLRU.StoredBlob) (m : TTLLRU.CMap)
        (k v : String) (ttlMs : Option Nat) (now : Nat),
        mapGet (TTLLRU.setOp cfg ⟨m, blob⟩ k v ttlMs now).1.cache k
          = some ⟨v, now + ttlMs.getD cfg.defaultTTLms⟩)
    ∧ (∀ (cfg : CacheConfig) (blob : TTLLRU.StoredBlob) (m : TTLLRU.CMap)
        (k v : String) (now : Nat),
        (TTLLRU.getOp (TTLLRU.setOp cfg ⟨m, blob⟩ k v (some 0) now).1.cache
          k now).1 = none)
    ∧ (∀ (m : TTLLRU.CMap) (k : String) (now : Nat) (e : TTLLRU.CacheEntry),
        (keys m).Nodup → mapGet m k = some e →
        ((TTLLRU.getOp m k now).1 = some e.value ↔ now < e.expiresAt))
    ∧ (∀ (maxSize : Nat) (m : CS.CMap) (k v : String) (ttlMs : Option Nat)
        (now : Nat), k ≠ "" → (ttlMs = some 0 ∨ ttlMs = none) →
        mapGet (CS.setCacheValue maxSize m k v ttlMs now).1 k
            = some ⟨v, none, now⟩
          ∧ ∀ later : Nat,
              (CS.getCacheValue (CS.setCacheValue maxSize m k v ttlMs now).1
                k later).1 = some v) := by
  refine ⟨?_, ?_, ?_, ?_⟩
  · intro cfg blob m k v ttlMs now
    obtain ⟨rest, hcache, hrk, _⟩ :=
      TTLLRU.setOp_cache_shape cfg ⟨m, blob⟩ k v ttlMs now
    rw [hcache, mapGet_append_of_none _ (mapGet_none_of_has_false hrk)]
    exact mapGet_singleton k _
  · intro cfg blob m k v now
    obtain ⟨rest, hcache, hrk, hrest⟩ :=
      TTLLRU.setOp_cache_shape cfg ⟨m, blob⟩ k v (some 0) now
    rw [hcache]
    have hclean : (TTLLRU.cleanupExpired
        (rest ++ [(k, ⟨v, now + (some 0).getD cfg.defaultTTLms⟩)]) now).1
        = rest := by
      unfold TTLLRU.cleanupExpired
      simp only
      have hfr : rest.filter (fun p => p.2.expiresAt ≤ now) = [] := by
        rw [List.filter_eq_nil_iff]
        intro p hp
        have := (hrest p hp).2
        simp
        omega
      rw [List.filter_append, hfr]
      simp only [List.nil_append, Option.getD_some, Nat.add_zero]
      have hone : List.filter (fun p => decide (p.2.expiresAt ≤ now))
          [(k, (⟨v, now⟩ : TTLLRU.CacheEntry))]
          = [(k, (⟨v, now⟩ : TTLLRU.CacheEntry))] := by
        simp
      rw [hone]
      simp only [List.map_cons, List.map_nil, List.foldl_cons, List.foldl_nil]
      show mapDelete (rest ++ [(k, (⟨v, now⟩ : TTLLRU.CacheEntry))]) k = rest
      rw [mapDelete, List.filter_append]
      rw [show List.filter (fun p => p.1 != k) rest = rest from
        mapDelete_of_not_has hrk]
      simp
    have hg1 : mapGet (TTLLRU.cleanupExpired
        (rest ++ [(k, ⟨v, now + (some 0).getD cfg.defaultTTLms⟩)]) now).1 k
        = none := by
      rw [hclean]
      exact mapGet_none_of_has_false hrk
    rw [TTLLRU.getOp_miss hg1]
  · intro m k now e hnd hg
    constructor
    · intro h
      by_contra hlive
      have hg1 : mapGet (TTLLRU.cleanupExpired m now).1 k = none := by
        rw [TTLLRU.cleanup_eq_filter hnd]
        exact mapGet_filter_none hnd _ hg (by simp; omega)
      rw [TTLLRU.getOp_miss hg1] at h
      simp at h
    · intro hlive
      have hg1 : mapGet (TTLLRU.cleanupExpired m now).1 k = some e := by
        rw [TTLLRU.cleanup_eq_filter hnd]
        exact mapGet_filter_some hnd _ hg (by simp [hlive])
      rw [TTLLRU.getOp_hit hg1 hlive]
  · intro maxSize m k v ttlMs now hk httl
    have hexp : CS.resolveExpiry ttlMs now = none := by
      rcases httl with h | h <;> simp [h, CS.resolveExpiry]
    have h1 : mapGet (CS.setCacheValue maxSize m k v ttlMs now).1 k
        = some ⟨v, none, now⟩ := by
      unfold CS.setCacheValue
      rw [if_neg hk]
      simp only
      rw [← hexp]
      exact mapGet_mapSet_self _ k _
    refine ⟨h1, fun later => ?_⟩
    unfold CS.getCacheValue
    rw [if_neg hk, h1]
    simp [CS.entryExpired]

/-- Witness for the C5 amended theorem: `set` with TTL 2000 at time 100
stores `expiresAt = 2100`; with TTL 0 the entry is immediately gone;
CacheSystem with TTL 0 stores a null expiry and still serves the value. -/
theorem C5_ttl_amended_witness :
    (mapGet (TTLLRU.setOp ⟨5, 9000, "s"⟩ ⟨[], .absent⟩ "a" "1" (some 2000)
        100).1.cache "a" = some ⟨"1", 2100⟩)
    ∧ ((TTLLRU.getOp (TTLLRU.setOp ⟨5, 9000, "s"⟩ ⟨[], .absent⟩ "a" "1"
        (some 0) 100).1.cache "a" 100).1 = none)
    ∧ ((TTLLRU.getOp [("a", ⟨"1", 10⟩)] "a" 4).1 = some "1")
    ∧ (mapGet (CS.setCacheValue 5 [] "b" "2" none 7).1 "b"
        = some ⟨"2", none, 7⟩) :=
  ⟨C5_ttl_amended.1 ⟨5, 9000, "s"⟩ .absent [] "a" "1" (some 2000) 100,
   C5_ttl_amended.2.1 ⟨5, 9000, "s"⟩ .absent [] "a" "1" 100,
   (C5_ttl_amended.2.2.1 [("a", ⟨"1", 10⟩)] "a" 4 ⟨"1", 10⟩ (by decide)
     (by decide)).2 (by decide),
   (C5_ttl_amended.2.2.2 5 [] "b" "2" none 7 (by decide) (Or.inr rfl)).1⟩

/-- C8 counterexample: in the TTLCache variant, after `set("a","1",ttl=0)`
at time 0 the key is resident but expired at time 5 (its own expiry test
says so), yet `has("a")` still returns true — `has` does not apply the
lazy-expiry semantics. -/
theorem C8_has_cex :
    (TTLC.setOp TTLC.cfgDemo [] "a" "1" (some 0) 0).1 = [("a", ⟨"1", 0, 0⟩)]
    ∧ TTLC.has [("a", ⟨"1", 0, 0⟩)] "a" = true
    ∧ TTLC.isExpired ⟨"1", 0, 0⟩ 5 = true
    ∧ mapGet [("a", (⟨"1", 0, 0⟩ : TTLC.CacheEntry))] "a" = some ⟨"1", 0, 0⟩ := by
  refine ⟨?_, ?_, ?_, ?_⟩ <;> decide

/-- C8 amended: in the TTLLRUCache engine, `has(key)` returns true iff the
key is resident and live, and its sweep leaves exactly the live entries in
their existing relative order (an order-preserving subsequence — no key is
promoted); in the TTLCache variant, `has` reports raw residency, returning
true even for resident-but-expired keys, and changes nothing. -/
theorem C8_has_amended :
    (∀ (m : TTLLRU.CMap) (k : String) (now : Nat), (keys m).Nodup →
        (((TTLLRU.hasOp m k now).1 = true ↔
            ∃ e : TTLLRU.CacheEntry, mapGet m k = some e ∧ now < e.expiresAt)
          ∧ (TTLLRU.hasOp m k now).2 = m.filter (fun p => now < p.2.expiresAt)
          ∧ ((TTLLRU.hasOp m k now).2).Sublist m))
    ∧ (∀ (m : TTLC.CMap) (k : String), TTLC.has m k = mapHas m k) := by
  constructor
  · intro m k now hnd
    have hc : (TTLLRU.cleanupExpired m now).1
        = m.filter (fun p => now < p.2.expiresAt) :=
      TTLLRU.cleanup_eq_filter hnd now
    refine ⟨?_, hc, ?_⟩
    · show mapHas (TTLLRU.cleanupExpired m now).1 k = true ↔ _
      constructor
      · intro h
        obtain ⟨p, hp, hpk⟩ := (mapHas_true_iff _ k).1 h
        obtain ⟨hpm, hplive⟩ := TTLLRU.mem_cleanup m now hp
        have hpe : (k, p.2) ∈ m := by
          have : p = (k, p.2) := by
            cases p
            simp_all
          rw [← this]
          exact hpm
        exact ⟨p.2, mapGet_eq_of_mem_nodup hnd hpe, hplive⟩
      · rintro ⟨e, hg, hlive⟩
        have hg1 : mapGet (TTLLRU.cleanupExpired m now).1 k = some e := by
          rw [hc]
          exact mapGet_filter_some hnd _ hg (by simp [hlive])
        exact mapHas_true_of_mapGet_some hg1
    · show ((TTLLRU.cleanupExpired m now).1).Sublist m
      rw [hc]
      exact List.filter_sublist m
  · intro m k
    rfl

/-- Witness for the C8 amended theorem: a live key is reported, the swept
state keeps only live entries in order. -/
theorem C8_has_amended_witness :
    (TTLLRU.hasOp [("a", ⟨"1", 10⟩)] "a" 0).1 = true :=
  ((C8_has_amended.1 [("a", ⟨"1", 10⟩)] "a" 0 (by decide)).1).2
    ⟨⟨"1", 10⟩, by decide, by decide⟩

/-- C9: `delete(key)` returns exactly whether the key was resident, removes
it and persists the shrunk snapshot (logging a delete-class event) when it
was, and otherwise leaves the whole engine state untouched, persists
nothing, and logs nothing — so deleting an absent key twice returns false
both times; the TTLCache variant likewise neither changes the map nor
persists on an absent key. -/
theorem C9_delete_contract (st : TTLLRU.EngineState) (k : String)
    (now now2 : Nat) :
    ((TTLLRU.deleteOp st k now).1 = mapHas st.cache k)
    ∧ (mapHas st.cache k = true →
        (TTLLRU.deleteOp st k now).2.1.cache = mapDelete st.cache k
        ∧ (TTLLRU.deleteOp st k now).2.1.stored
            = .snap (mapDelete st.cache k)
        ∧ (⟨now, .deleteE, TTLLRU.deleteMsg k⟩ : LogEvent)
            ∈ (TTLLRU.deleteOp st k now).2.2)
    ∧ (mapHas st.cache k = false →
        TTLLRU.deleteOp st k now = (false, st, [])
        ∧ TTLLRU.deleteOp (TTLLRU.deleteOp st k now).2.1 k now2
            = (false, st, []))
    ∧ (∀ m : TTLC.CMap, mapHas m k = false →
        TTLC.deleteOp m k now = (m, false, [])) := by
  refine ⟨?_, ?_, ?_, ?_⟩
  · unfold TTLLRU.deleteOp
    by_cases h : mapHas st.cache k <;> simp [h]
  · intro h
    simp [TTLLRU.deleteOp, TTLLRU.saveToStorage, h]
  · intro h
    have h1 : TTLLRU.deleteOp st k now = (false, st, []) := by
      unfold TTLLRU.deleteOp
      simp [h]
    refine ⟨h1, ?_⟩
    rw [h1]
    unfold TTLLRU.deleteOp
    simp [h]
  · intro m h
    unfold TTLC.deleteOp
    simp [h]

/-- Witness for C9: deleting an absent key returns false and changes
nothing. -/
theorem C9_delete_contract_witness :
    TTLLRU.deleteOp ⟨[("a", ⟨"1", 10⟩)], .absent⟩ "b" 0
      = (false, ⟨[("a", ⟨"1", 10⟩)], .absent⟩, []) :=
  ((C9_delete_contract ⟨[("a", ⟨"1", 10⟩)], .absent⟩ "b" 0 0).2.2.1
    (by decide)).1

end PromptBattle
